import Mathlib

/-!
Shallow embedding of `src/processestimator.py` (`MarkovProcessEstimator`).

Python dictionaries (here `defaultdict`s) are modelled as association
lists in insertion order: a lookup reads the first entry with the given
key, an assignment updates that entry in place, and a fresh key is
appended at the end, matching CPython's insertion-ordered dicts.
A `defaultdict` lookup on a missing key stores the default value and
returns it, so lookups are state transformers (`dictGetAdd`); pure reads
with the zero/empty default (`dictGetD`) describe the observable counts.
Python floats are modelled as exact rationals (`Rat`): every probability
produced by the estimator is a ratio of small integers.
-/

namespace ProcessEstimator

/-- First-match lookup in an insertion-ordered association list
(Python `k in d` / `d[k]` read path). -/
def dictGet {β : Type} : List (String × β) → String → Option β
  | [], _ => none
  | (k, v) :: rest, key => if k = key then some v else dictGet rest key

/-- Lookup with default: the value a `defaultdict` lookup observes. -/
def dictGetD {β : Type} (d : List (String × β)) (key : String) (dflt : β) : β :=
  (dictGet d key).getD dflt

/-- `defaultdict.__getitem__`: return the stored value, or store the
default at the end of the dict and return it. -/
def dictGetAdd {β : Type} (d : List (String × β)) (key : String) (dflt : β) :
    β × List (String × β) :=
  match dictGet d key with
  | some v => (v, d)
  | none => (dflt, d ++ [(key, dflt)])

/-- Dict assignment `d[key] = v`: overwrite the first entry with this
key, or append a new entry. -/
def dictSet {β : Type} : List (String × β) → String → β → List (String × β)
  | [], key, v => [(key, v)]
  | (k, w) :: rest, key, v =>
      if k = key then (k, v) :: rest else (k, w) :: dictSet rest key v

/-- The keys of a dict, in insertion order. -/
def dictKeys {β : Type} (d : List (String × β)) : List String := d.map Prod.fst

/-- `d[key] += 1` on a `defaultdict(int)`: bump the first entry with this
key, or append the key with value 1 (vivified 0, then incremented). -/
def dictIncr : List (String × Nat) → String → List (String × Nat)
  | [], key => [(key, 1)]
  | (k, v) :: rest, key =>
      if k = key then (k, v + 1) :: rest else (k, v) :: dictIncr rest key

/-- `self.transition_counts[state_from][state_to] += 1` on the nested
`defaultdict(lambda: defaultdict(int))`: vivify the inner dict for
`state_from` if needed, then bump its entry for `state_to`. -/
def incrTransition :
    List (String × List (String × Nat)) → String → String →
    List (String × List (String × Nat))
  | [], state_from, state_to => [(state_from, [(state_to, 1)])]
  | (k, inner) :: rest, state_from, state_to =>
      if k = state_from then (k, dictIncr inner state_to) :: rest
      else (k, inner) :: incrTransition rest state_from state_to

/-- The estimator's mutable state: `states` (a Python `set`),
`transition_counts` (nested `defaultdict`), `state_counts`
(`defaultdict(int)`), and the retained `episodes` list. -/
structure MarkovProcessEstimator where
  states : Finset String
  transition_counts : List (String × List (String × Nat))
  state_counts : List (String × Nat)
  episodes : List (List String)

/-- `__init__`: all four containers start empty. -/
def emptyEstimator : MarkovProcessEstimator := ⟨∅, [], [], []⟩

/-- One iteration of the transition loop in `add_episode`: add both
states to the state space, bump the transition count and the origin's
state count. -/
def addPair (est : MarkovProcessEstimator) (state_from state_to : String) :
    MarkovProcessEstimator :=
  { est with
    states := insert state_to (insert state_from est.states)
    transition_counts := incrTransition est.transition_counts state_from state_to
    state_counts := dictIncr est.state_counts state_from }

/-- `add_episode`: return unchanged if the episode has fewer than 2
elements; otherwise append the episode and process each adjacent pair
`(episode[i], episode[i+1])` in order. -/
def add_episode (est : MarkovProcessEstimator) (episode : List String) :
    MarkovProcessEstimator :=
  if episode.length < 2 then est
  else
    (episode.zip episode.tail).foldl (fun e p => addPair e p.1 p.2)
      { est with episodes := est.episodes ++ [episode] }

/-- `get_transition_probability`: returns the probability value together
with the estimator state after the call, because the `defaultdict`
lookups store missing keys (with value `0`, resp. an empty inner dict).
The inner dict is mutated through the reference held by the outer dict,
modelled by writing the extended inner dict back with `dictSet`. -/
def get_transition_probability (est : MarkovProcessEstimator)
    (state_from state_to : String) : Rat × MarkovProcessEstimator :=
  let scLookup := dictGetAdd est.state_counts state_from 0
  let est1 := { est with state_counts := scLookup.2 }
  if scLookup.1 = 0 then (0, est1)
  else
    let outer := dictGetAdd est1.transition_counts state_from []
    let innerLookup := dictGetAdd outer.1 state_to 0
    let est2 := { est1 with
      transition_counts := dictSet outer.2 state_from innerLookup.2 }
    ((innerLookup.1 : Rat) / (scLookup.1 : Rat), est2)

/-- The value returned by `get_transition_probability`. -/
def transitionProbability (est : MarkovProcessEstimator)
    (state_from state_to : String) : Rat :=
  (get_transition_probability est state_from state_to).1

/-- The observable count `transition_counts[state_from][state_to]`
(missing keys behave as zero). -/
def transitionCount (est : MarkovProcessEstimator)
    (state_from state_to : String) : Nat :=
  dictGetD (dictGetD est.transition_counts state_from []) state_to 0

/-- The observable count `state_counts[s]` (missing keys behave as zero). -/
def stateCount (est : MarkovProcessEstimator) (s : String) : Nat :=
  dictGetD est.state_counts s 0

/-- One entry of the sparse `transitions` map in `get_state_statistics`. -/
structure TransitionStat where
  count : Nat
  probability : Rat

/-- One entry of the dictionary returned by `get_state_statistics`. -/
structure StateStat where
  total_occurrences : Nat
  transitions : String → Option TransitionStat

/-- Return value of `get_state_statistics`. Python iterates the set
`self.states` in an unspecified order building dicts keyed by states, so
both the outer dict and the nested `transitions` dicts are modelled as
partial functions; `transitions` contains `next_state` exactly when the
loop over `self.states` reaches it and its count is positive. -/
def get_state_statistics (est : MarkovProcessEstimator) (state : String) :
    Option StateStat :=
  if state ∈ est.states then
    some
      { total_occurrences := dictGetD est.state_counts state 0
        transitions := fun next_state =>
          if next_state ∈ est.states ∧ 0 < transitionCount est state next_state
          then some
            { count := transitionCount est state next_state
              probability := transitionProbability est state next_state }
          else none }
  else none

/-- The `__main__` loop `for episode in episodes: estimator.add_episode(episode)`
run from a fresh estimator. -/
def ingestAll (eps : List (List String)) : MarkovProcessEstimator :=
  eps.foldl add_episode emptyEstimator

/-- The three episodes listed under `__main__`. -/
def exampleEpisodes : List (List String) :=
  [["Home", "Coffee", "Coffee", "Chat", "Chat", "Coffee", "Computer",
    "Computer", "Home"],
   ["Computer", "Computer", "Chat", "Chat", "Coffee", "Computer",
    "Computer", "Computer"],
   ["Home", "Home", "Coffee", "Chat", "Computer", "Coffee", "Coffee"]]

/-- The inner dict `transition_counts[s]` as observed through reads
(missing origin keys behave as an empty inner dict). -/
def transitionRow (est : MarkovProcessEstimator) (s : String) :
    List (String × Nat) :=
  dictGetD est.transition_counts s []

/-- Structural well-formedness of the count containers: inner dict keys
are duplicate-free, every recorded origin and destination lies in
`states`, and each origin's state count equals the total of its inner
dict's values. -/
def InvCounts (est : MarkovProcessEstimator) : Prop :=
  (∀ s, (dictKeys (transitionRow est s)).Nodup) ∧
  (∀ s, ∀ t ∈ dictKeys (transitionRow est s), t ∈ est.states) ∧
  (∀ s ∈ dictKeys est.transition_counts, s ∈ est.states) ∧
  (∀ s, stateCount est s = ((transitionRow est s).map Prod.snd).sum)

/-- `states` is exactly the set of labels occurring in the retained
episodes. -/
def EpisodesOk (est : MarkovProcessEstimator) : Prop :=
  (∀ e ∈ est.episodes, ∀ x ∈ e, x ∈ est.states) ∧
  (∀ x ∈ est.states, ∃ e ∈ est.episodes, x ∈ e)

/-- The transition loop of `add_episode`, folded over an explicit list
of adjacent pairs. -/
def processPairs (est : MarkovProcessEstimator)
    (ps : List (String × String)) : MarkovProcessEstimator :=
  ps.foldl (fun e p => addPair e p.1 p.2) est

/-- Number of pairs in `ps` whose first component is `s`. -/
def originCount : List (String × String) → String → Nat
  | [], _ => 0
  | p :: rest, s => (if p.1 = s then 1 else 0) + originCount rest s

/-- Number of occurrences of the pair `(s, t)` in `ps`. -/
def pairCount : List (String × String) → String → String → Nat
  | [], _, _ => 0
  | p :: rest, s, t => (if p.1 = s ∧ p.2 = t then 1 else 0) + pairCount rest s t

/-! ### Dictionary lemmas -/

theorem dictGetAdd_fst {β : Type} (d : List (String × β)) (key : String)
    (dflt : β) : (dictGetAdd d key dflt).1 = dictGetD d key dflt := by
  unfold dictGetAdd dictGetD
  cases dictGet d key <;> simp

theorem dictGet_eq_none_iff {β : Type} (d : List (String × β)) (key : String) :
    dictGet d key = none ↔ key ∉ dictKeys d := by
  induction d with
  | nil => simp [dictGet, dictKeys]
  | cons hd rest ih =>
      obtain ⟨k, v⟩ := hd
      simp only [dictGet, dictKeys, List.map_cons, List.mem_cons]
      by_cases h : k = key
      · subst h; simp
      · simp [h, Ne.symm h, ih, dictKeys]

theorem mem_dictKeys_of_getD_ne (d : List (String × Nat)) (key : String)
    (h : dictGetD d key 0 ≠ 0) : key ∈ dictKeys d := by
  by_contra hk
  have hn := (dictGet_eq_none_iff d key).mpr hk
  simp [dictGetD, hn] at h

theorem dictGetD_dictIncr (d : List (String × Nat)) (k k' : String) :
    dictGetD (dictIncr d k) k' 0 =
      if k' = k then dictGetD d k' 0 + 1 else dictGetD d k' 0 := by
  induction d with
  | nil =>
      by_cases h : k' = k
      · subst h; simp [dictIncr, dictGet, dictGetD]
      · simp [dictIncr, dictGet, dictGetD, h, Ne.symm h]
  | cons hd rest ih =>
      obtain ⟨a, v⟩ := hd
      by_cases hak : a = k
      · subst hak
        by_cases h : k' = a
        · subst h; simp [dictIncr, dictGet, dictGetD]
        · simp [dictIncr, dictGet, dictGetD, h, Ne.symm h]
      · by_cases hak' : a = k'
        · subst hak'
          simp [dictIncr, hak, dictGet, dictGetD, Ne.symm hak]
        · simp only [dictIncr, if_neg hak, dictGetD, dictGet, if_neg hak']
          simp only [dictGetD] at ih
          exact ih

theorem dictIncr_keys (d : List (String × Nat)) (k : String) :
    dictKeys (dictIncr d k) =
      if k ∈ dictKeys d then dictKeys d else dictKeys d ++ [k] := by
  induction d with
  | nil => simp [dictIncr, dictKeys]
  | cons hd rest ih =>
      obtain ⟨a, v⟩ := hd
      by_cases hak : a = k
      · subst hak
        simp [dictIncr, dictKeys]
      · simp only [dictIncr, if_neg hak, dictKeys, List.map_cons] at ih ⊢
        rw [ih]
        by_cases hm : k ∈ List.map Prod.fst rest
        · rw [if_pos hm, if_pos (List.mem_cons_of_mem a hm)]
        · have hout : k ∉ a :: List.map Prod.fst rest := by
            simp only [List.mem_cons]
            rintro (h1 | h2)
            · exact hak h1.symm
            · exact hm h2
          rw [if_neg hm, if_neg hout]
          simp

theorem dictIncr_values_sum (d : List (String × Nat)) (k : String) :
    ((dictIncr d k).map Prod.snd).sum = ((d.map Prod.snd).sum) + 1 := by
  induction d with
  | nil => simp [dictIncr]
  | cons hd rest ih =>
      obtain ⟨a, v⟩ := hd
      by_cases hak : a = k
      · simp [dictIncr, hak]
        omega
      · simp [dictIncr, hak, ih]
        omega

theorem dictGet_incrTransition (tc : List (String × List (String × Nat)))
    (a b s : String) :
    dictGet (incrTransition tc a b) s =
      if s = a then some (dictIncr (dictGetD tc a []) b) else dictGet tc s := by
  induction tc with
  | nil =>
      by_cases h : s = a
      · subst h; simp [incrTransition, dictGet, dictGetD, dictIncr]
      · simp [incrTransition, dictGet, dictGetD, h, Ne.symm h]
  | cons hd rest ih =>
      obtain ⟨k, inner⟩ := hd
      by_cases hka : k = a
      · subst hka
        by_cases h : s = k
        · subst h; simp [incrTransition, dictGet, dictGetD]
        · simp [incrTransition, dictGet, dictGetD, h, Ne.symm h]
      · by_cases hks : k = s
        · subst hks
          simp [incrTransition, hka, dictGet, dictGetD, Ne.symm hka]
        · simp only [incrTransition, if_neg hka, dictGet, if_neg hks]
          rw [ih]
          by_cases h : s = a
          · subst h
            rw [if_pos rfl, if_pos rfl]
            simp [dictGetD, dictGet, hka]
          · simp [h]

theorem incrTransition_keys (tc : List (String × List (String × Nat)))
    (a b : String) :
    dictKeys (incrTransition tc a b) =
      if a ∈ dictKeys tc then dictKeys tc else dictKeys tc ++ [a] := by
  induction tc with
  | nil => simp [incrTransition, dictKeys]
  | cons hd rest ih =>
      obtain ⟨k, inner⟩ := hd
      by_cases hka : k = a
      · subst hka
        simp [incrTransition, dictKeys]
      · simp only [incrTransition, if_neg hka, dictKeys, List.map_cons] at ih ⊢
        rw [ih]
        by_cases hm : a ∈ List.map Prod.fst rest
        · rw [if_pos hm, if_pos (List.mem_cons_of_mem k hm)]
        · have hout : a ∉ k :: List.map Prod.fst rest := by
            simp only [List.mem_cons]
            rintro (h1 | h2)
            · exact hka h1.symm
            · exact hm h2
          rw [if_neg hm, if_neg hout]
          simp

/-! ### Closed form of the probability value -/

theorem transitionProbability_eq (est : MarkovProcessEstimator)
    (state_from state_to : String) :
    transitionProbability est state_from state_to =
      if stateCount est state_from = 0 then 0
      else (transitionCount est state_from state_to : Rat) /
        (stateCount est state_from : Rat) := by
  unfold transitionProbability get_transition_probability
  simp only [dictGetAdd_fst]
  by_cases h : dictGetD est.state_counts state_from 0 = 0 <;>
    simp [h, stateCount, transitionCount]

/-! ### Effect of one transition-loop iteration -/

theorem transitionRow_addPair (est : MarkovProcessEstimator) (a b s : String) :
    transitionRow (addPair est a b) s =
      if s = a then dictIncr (transitionRow est a) b else transitionRow est s := by
  show dictGetD (incrTransition est.transition_counts a b) s [] = _
  unfold transitionRow dictGetD
  rw [dictGet_incrTransition]
  by_cases h : s = a <;> simp [h, dictGetD]

theorem stateCount_addPair (est : MarkovProcessEstimator) (a b s : String) :
    stateCount (addPair est a b) s =
      if s = a then stateCount est s + 1 else stateCount est s := by
  show dictGetD (dictIncr est.state_counts a) s 0 = _
  exact dictGetD_dictIncr est.state_counts a s

theorem transitionCount_addPair (est : MarkovProcessEstimator)
    (a b s t : String) :
    transitionCount (addPair est a b) s t =
      if s = a ∧ t = b then transitionCount est s t + 1
      else transitionCount est s t := by
  show dictGetD (transitionRow (addPair est a b) s) t 0 = _
  rw [transitionRow_addPair]
  by_cases h : s = a
  · subst h
    rw [if_pos rfl, dictGetD_dictIncr]
    by_cases ht : t = b
    · subst ht
      rw [if_pos rfl, if_pos ⟨rfl, rfl⟩]
      rfl
    · rw [if_neg ht, if_neg (by intro hh; exact ht hh.2)]
      rfl
  · rw [if_neg h, if_neg (by intro hh; exact h hh.1)]
    rfl

theorem mem_states_addPair (est : MarkovProcessEstimator) (a b x : String) :
    x ∈ (addPair est a b).states ↔ x = b ∨ x = a ∨ x ∈ est.states := by
  simp [addPair, Finset.mem_insert]

theorem episodes_addPair (est : MarkovProcessEstimator) (a b : String) :
    (addPair est a b).episodes = est.episodes := rfl

/-! ### Effect of the full transition loop -/

theorem processPairs_nil (est : MarkovProcessEstimator) :
    processPairs est [] = est := rfl

theorem processPairs_cons (est : MarkovProcessEstimator)
    (p : String × String) (ps : List (String × String)) :
    processPairs est (p :: ps) = processPairs (addPair est p.1 p.2) ps := rfl

theorem episodes_processPairs (ps : List (String × String)) :
    ∀ est : MarkovProcessEstimator, (processPairs est ps).episodes = est.episodes := by
  induction ps with
  | nil => intro est; rfl
  | cons p ps ih =>
      intro est
      rw [processPairs_cons, ih]
      rfl

theorem mem_states_processPairs (ps : List (String × String)) :
    ∀ (est : MarkovProcessEstimator) (x : String),
      x ∈ (processPairs est ps).states ↔
        x ∈ est.states ∨ ∃ p ∈ ps, x = p.1 ∨ x = p.2 := by
  induction ps with
  | nil => intro est x; simp [processPairs]
  | cons p ps ih =>
      intro est x
      rw [processPairs_cons, ih]
      simp only [mem_states_addPair, List.mem_cons]
      constructor
      · rintro ((h | h | h) | ⟨q, hq, hor⟩)
        · exact Or.inr ⟨p, Or.inl rfl, Or.inr h⟩
        · exact Or.inr ⟨p, Or.inl rfl, Or.inl h⟩
        · exact Or.inl h
        · exact Or.inr ⟨q, Or.inr hq, hor⟩
      · rintro (h | ⟨q, (rfl | hq), hor⟩)
        · exact Or.inl (Or.inr (Or.inr h))
        · rcases hor with h1 | h2
          · exact Or.inl (Or.inr (Or.inl h1))
          · exact Or.inl (Or.inl h2)
        · exact Or.inr ⟨q, hq, hor⟩

theorem originCount_cons (p : String × String) (ps : List (String × String))
    (s : String) :
    originCount (p :: ps) s = (if p.1 = s then 1 else 0) + originCount ps s := rfl

theorem pairCount_cons (p : String × String) (ps : List (String × String))
    (s t : String) :
    pairCount (p :: ps) s t =
      (if p.1 = s ∧ p.2 = t then 1 else 0) + pairCount ps s t := rfl

theorem stateCount_processPairs (ps : List (String × String)) :
    ∀ (est : MarkovProcessEstimator) (s : String),
      stateCount (processPairs est ps) s = stateCount est s + originCount ps s := by
  induction ps with
  | nil => intro est s; simp [processPairs, originCount]
  | cons p ps ih =>
      intro est s
      rw [processPairs_cons, ih, stateCount_addPair, originCount_cons]
      by_cases h : s = p.1
      · rw [if_pos h, if_pos h.symm]
        omega
      · rw [if_neg h, if_neg fun hh => h hh.symm]
        omega

theorem transitionCount_processPairs (ps : List (String × String)) :
    ∀ (est : MarkovProcessEstimator) (s t : String),
      transitionCount (processPairs est ps) s t =
        transitionCount est s t + pairCount ps s t := by
  induction ps with
  | nil => intro est s t; simp [processPairs, pairCount]
  | cons p ps ih =>
      intro est s t
      rw [processPairs_cons, ih, transitionCount_addPair, pairCount_cons]
      by_cases h : s = p.1 ∧ t = p.2
      · rw [if_pos h, if_pos ⟨h.1.symm, h.2.symm⟩]
        omega
      · rw [if_neg h, if_neg fun hh => h ⟨hh.1.symm, hh.2.symm⟩]
        omega

/-! ### Effect of `add_episode` on the observable counts -/

theorem stateCount_episodes_update (est : MarkovProcessEstimator)
    (l : List (List String)) (s : String) :
    stateCount { est with episodes := l } s = stateCount est s := rfl

theorem transitionCount_episodes_update (est : MarkovProcessEstimator)
    (l : List (List String)) (s t : String) :
    transitionCount { est with episodes := l } s t = transitionCount est s t := rfl

theorem stateCount_empty (s : String) : stateCount emptyEstimator s = 0 := rfl

theorem transitionCount_empty (s t : String) :
    transitionCount emptyEstimator s t = 0 := rfl

theorem add_episode_of_two_le (est : MarkovProcessEstimator)
    (episode : List String) (h : 2 ≤ episode.length) :
    add_episode est episode =
      processPairs { est with episodes := est.episodes ++ [episode] }
        (episode.zip episode.tail) := by
  unfold add_episode
  rw [if_neg (by omega)]
  rfl

theorem add_episode_short (est : MarkovProcessEstimator)
    (episode : List String) (h : episode.length < 2) :
    add_episode est episode = est := by
  unfold add_episode
  rw [if_pos h]

theorem stateCount_add_episode (est : MarkovProcessEstimator)
    (e : List String) (s : String) :
    stateCount (add_episode est e) s =
      stateCount est s + stateCount (add_episode emptyEstimator e) s := by
  by_cases h : e.length < 2
  · rw [add_episode_short _ _ h, add_episode_short _ _ h, stateCount_empty]
    omega
  · have h2 : 2 ≤ e.length := by omega
    rw [add_episode_of_two_le _ _ h2, add_episode_of_two_le _ _ h2,
      stateCount_processPairs, stateCount_processPairs]
    simp [stateCount_episodes_update, stateCount_empty]

theorem transitionCount_add_episode (est : MarkovProcessEstimator)
    (e : List String) (s t : String) :
    transitionCount (add_episode est e) s t =
      transitionCount est s t +
        transitionCount (add_episode emptyEstimator e) s t := by
  by_cases h : e.length < 2
  · rw [add_episode_short _ _ h, add_episode_short _ _ h, transitionCount_empty]
    omega
  · have h2 : 2 ≤ e.length := by omega
    rw [add_episode_of_two_le _ _ h2, add_episode_of_two_le _ _ h2,
      transitionCount_processPairs, transitionCount_processPairs]
    simp [transitionCount_episodes_update, transitionCount_empty]

/-! ### Summing a dict row over a finite superset of its keys -/

theorem sum_getD_eq_values_sum (d : List (String × Nat)) :
    ∀ T : Finset String, (dictKeys d).Nodup → (∀ k ∈ dictKeys d, k ∈ T) →
      ∑ t ∈ T, dictGetD d t 0 = (d.map Prod.snd).sum := by
  induction d with
  | nil =>
      intro T _ _
      simp [dictGetD, dictGet]
  | cons hd rest ih =>
      obtain ⟨k, v⟩ := hd
      intro T hnd hsub
      have hnd' : (k :: dictKeys rest).Nodup := by simpa [dictKeys] using hnd
      have hk_not : k ∉ dictKeys rest := (List.nodup_cons.mp hnd').1
      have hndrest : (dictKeys rest).Nodup := (List.nodup_cons.mp hnd').2
      have hkT : k ∈ T := hsub k (by simp [dictKeys])
      rw [← Finset.add_sum_erase T _ hkT]
      have hfk : dictGetD ((k, v) :: rest) k 0 = v := by simp [dictGetD, dictGet]
      have hcong : ∑ t ∈ T.erase k, dictGetD ((k, v) :: rest) t 0 =
          ∑ t ∈ T.erase k, dictGetD rest t 0 := by
        apply Finset.sum_congr rfl
        intro t ht
        have hne : t ≠ k := (Finset.mem_erase.mp ht).1
        simp [dictGetD, dictGet, Ne.symm hne]
      have hsub' : ∀ x ∈ dictKeys rest, x ∈ T.erase k := by
        intro x hx
        refine Finset.mem_erase.mpr ⟨fun hxk => hk_not (hxk ▸ hx), ?_⟩
        exact hsub x (by simp [dictKeys]; exact Or.inr (by simpa [dictKeys] using hx))
      rw [hfk, hcong, ih (T.erase k) hndrest hsub']
      simp

/-! ### The count invariants hold on every reachable estimator -/

theorem invCounts_empty : InvCounts emptyEstimator := by
  refine ⟨?_, ?_, ?_, ?_⟩
  · intro s
    simp [transitionRow, dictGetD, dictGet, dictKeys, emptyEstimator]
  · intro s t ht
    simp [transitionRow, dictGetD, dictGet, dictKeys, emptyEstimator] at ht
  · intro s hs
    simp [dictKeys, emptyEstimator] at hs
  · intro s
    simp [stateCount, transitionRow, dictGetD, dictGet, emptyEstimator]

theorem invCounts_addPair (est : MarkovProcessEstimator) (a b : String)
    (h : InvCounts est) : InvCounts (addPair est a b) := by
  obtain ⟨hnd, hrow, houter, hsum⟩ := h
  refine ⟨?_, ?_, ?_, ?_⟩
  · intro s
    rw [transitionRow_addPair]
    by_cases hs : s = a
    · rw [if_pos hs, dictIncr_keys]
      by_cases hm : b ∈ dictKeys (transitionRow est a)
      · rw [if_pos hm]; exact hnd a
      · rw [if_neg hm, List.nodup_append]
        exact ⟨hnd a, List.nodup_singleton b, by simpa using hm⟩
    · rw [if_neg hs]; exact hnd s
  · intro s t ht
    rw [transitionRow_addPair] at ht
    rw [mem_states_addPair]
    by_cases hs : s = a
    · rw [if_pos hs, dictIncr_keys] at ht
      by_cases hm : b ∈ dictKeys (transitionRow est a)
      · rw [if_pos hm] at ht
        exact Or.inr (Or.inr (hrow a t ht))
      · rw [if_neg hm] at ht
        rcases List.mem_append.mp ht with h1 | h1
        · exact Or.inr (Or.inr (hrow a t h1))
        · simp at h1
          exact Or.inl h1
    · rw [if_neg hs] at ht
      exact Or.inr (Or.inr (hrow s t ht))
  · intro s hs
    have hs' : s ∈ dictKeys (incrTransition est.transition_counts a b) := hs
    rw [incrTransition_keys] at hs'
    rw [mem_states_addPair]
    by_cases hm : a ∈ dictKeys est.transition_counts
    · rw [if_pos hm] at hs'
      exact Or.inr (Or.inr (houter s hs'))
    · rw [if_neg hm] at hs'
      rcases List.mem_append.mp hs' with h1 | h1
      · exact Or.inr (Or.inr (houter s h1))
      · simp at h1
        exact Or.inr (Or.inl h1)
  · intro s
    rw [stateCount_addPair, transitionRow_addPair]
    by_cases hs : s = a
    · subst hs
      rw [if_pos rfl, if_pos rfl, dictIncr_values_sum, hsum s]
    · rw [if_neg hs, if_neg hs]
      exact hsum s

theorem invCounts_processPairs (ps : List (String × String)) :
    ∀ est : MarkovProcessEstimator,
      InvCounts est → InvCounts (processPairs est ps) := by
  induction ps with
  | nil => intro est h; exact h
  | cons p ps ih =>
      intro est h
      rw [processPairs_cons]
      exact ih _ (invCounts_addPair est p.1 p.2 h)

theorem invCounts_add_episode (est : MarkovProcessEstimator)
    (e : List String) (h : InvCounts est) : InvCounts (add_episode est e) := by
  by_cases hl : e.length < 2
  · rw [add_episode_short _ _ hl]
    exact h
  · rw [add_episode_of_two_le _ _ (by omega)]
    exact invCounts_processPairs _ _ h

theorem invCounts_foldl (eps : List (List String)) :
    ∀ est : MarkovProcessEstimator,
      InvCounts est → InvCounts (eps.foldl add_episode est) := by
  induction eps with
  | nil => intro est h; exact h
  | cons e eps ih =>
      intro est h
      rw [List.foldl_cons]
      exact ih _ (invCounts_add_episode est e h)

theorem invCounts_ingestAll (eps : List (List String)) :
    InvCounts (ingestAll eps) :=
  invCounts_foldl eps emptyEstimator invCounts_empty

/-! ### `states` is exactly the labels of the retained episodes -/

theorem exists_pair_of_mem :
    ∀ e : List String, 2 ≤ e.length → ∀ x ∈ e,
      ∃ p ∈ e.zip e.tail, x = p.1 ∨ x = p.2 := by
  intro e
  induction e with
  | nil => intro h; simp at h
  | cons a rest ih =>
      intro hlen x hx
      cases rest with
      | nil => simp at hlen
      | cons b rest2 =>
          rcases List.mem_cons.mp hx with h1 | hx2
          · exact ⟨(a, b), by simp, Or.inl h1⟩
          · cases rest2 with
            | nil =>
                have hb : x = b := by simpa using hx2
                exact ⟨(a, b), by simp, Or.inr hb⟩
            | cons c rest3 =>
                have h2 : 2 ≤ (b :: c :: rest3).length := by
                  simp [List.length_cons]
                obtain ⟨p, hp, hor⟩ := ih h2 x hx2
                refine ⟨p, ?_, hor⟩
                have hz : (a :: b :: c :: rest3).zip (a :: b :: c :: rest3).tail =
                    (a, b) :: (b :: c :: rest3).zip (b :: c :: rest3).tail := rfl
                rw [hz]
                exact List.mem_cons_of_mem _ hp

theorem episodesOk_empty : EpisodesOk emptyEstimator := by
  constructor
  · intro e he
    simp [emptyEstimator] at he
  · intro x hx
    simp [emptyEstimator] at hx

theorem episodesOk_add_episode (est : MarkovProcessEstimator)
    (e : List String) (h : EpisodesOk est) : EpisodesOk (add_episode est e) := by
  by_cases hl : e.length < 2
  · rw [add_episode_short _ _ hl]
    exact h
  · have h2 : 2 ≤ e.length := by omega
    rw [add_episode_of_two_le _ _ h2]
    constructor
    · intro ep hep x hx
      rw [episodes_processPairs] at hep
      rw [mem_states_processPairs]
      rcases List.mem_append.mp hep with h1 | h1
      · exact Or.inl (h.1 ep h1 x hx)
      · have hee : ep = e := by simpa using h1
        subst hee
        obtain ⟨p, hp, hor⟩ := exists_pair_of_mem ep h2 x hx
        exact Or.inr ⟨p, hp, hor⟩
    · intro x hx
      rw [mem_states_processPairs] at hx
      rcases hx with h1 | ⟨p, hp, hor⟩
      · obtain ⟨e', he', hxe⟩ := h.2 x h1
        refine ⟨e', ?_, hxe⟩
        rw [episodes_processPairs]
        exact List.mem_append_left _ he'
      · obtain ⟨p1, p2⟩ := p
        have hmem := List.of_mem_zip hp
        have hx_e : x ∈ e := by
          rcases hor with rfl | rfl
          · exact hmem.1
          · exact List.tail_subset e hmem.2
        refine ⟨e, ?_, hx_e⟩
        rw [episodes_processPairs]
        exact List.mem_append_right _ (by simp)

theorem episodesOk_foldl (eps : List (List String)) :
    ∀ est : MarkovProcessEstimator,
      EpisodesOk est → EpisodesOk (eps.foldl add_episode est) := by
  induction eps with
  | nil => intro est h; exact h
  | cons e eps ih =>
      intro est h
      rw [List.foldl_cons]
      exact ih _ (episodesOk_add_episode est e h)

theorem episodesOk_ingestAll (eps : List (List String)) :
    EpisodesOk (ingestAll eps) :=
  episodesOk_foldl eps emptyEstimator episodesOk_empty

/-! ### The claims -/

/-- Claim C1, as stated, is false on the code: with the three
`__main__` episodes the code yields `P(Home→Coffee) = 2/3 ≠ 3/4`
(and `P(Coffee→Chat) = 1/3 ≠ 3/8`). -/
theorem claim_C1_counterexample :
    ¬(transitionProbability (ingestAll exampleEpisodes) "Home" "Coffee" = 3 / 4 ∧
      transitionProbability (ingestAll exampleEpisodes) "Coffee" "Chat" = 3 / 8) := by
  intro hcontra
  have hsc : stateCount (ingestAll exampleEpisodes) "Home" = 3 := by decide
  have htc : transitionCount (ingestAll exampleEpisodes) "Home" "Coffee" = 2 := by
    decide
  have h1 := hcontra.1
  rw [transitionProbability_eq, hsc, htc] at h1
  norm_num at h1

/-- Claim C1 (amended): after ingesting the three `__main__` episodes,
`TransitionProbability("Home","Coffee") = 2/3 ≈ 0.667` and
`TransitionProbability("Coffee","Chat") = 2/6 = 1/3 ≈ 0.333`. -/
theorem claim_C1 :
    transitionProbability (ingestAll exampleEpisodes) "Home" "Coffee" = 2 / 3 ∧
    transitionProbability (ingestAll exampleEpisodes) "Coffee" "Chat" = 1 / 3 := by
  have hsc1 : stateCount (ingestAll exampleEpisodes) "Home" = 3 := by decide
  have htc1 : transitionCount (ingestAll exampleEpisodes) "Home" "Coffee" = 2 := by
    decide
  have hsc2 : stateCount (ingestAll exampleEpisodes) "Coffee" = 6 := by decide
  have htc2 : transitionCount (ingestAll exampleEpisodes) "Coffee" "Chat" = 2 := by
    decide
  constructor
  · rw [transitionProbability_eq, hsc1, htc1]
    norm_num
  · rw [transitionProbability_eq, hsc2, htc2]
    norm_num

/-- Claim C2: after any sequence of `add_episode` calls from the empty
estimator, `stateCounts[s]` equals the sum of `transitionCounts[(s,t)]`
over all destinations `t` (over any finite set containing every recorded
destination of `s`), and one transition-loop iteration increments the
origin's state count and the pair's transition count by exactly one. -/
theorem claim_C2 :
    (∀ (eps : List (List String)) (s : String) (T : Finset String),
        (∀ t ∈ dictKeys (transitionRow (ingestAll eps) s), t ∈ T) →
        ∑ t ∈ T, transitionCount (ingestAll eps) s t =
          stateCount (ingestAll eps) s) ∧
    (∀ (est : MarkovProcessEstimator) (a b : String),
        stateCount (addPair est a b) a = stateCount est a + 1 ∧
        transitionCount (addPair est a b) a b = transitionCount est a b + 1) := by
  constructor
  · intro eps s T hT
    obtain ⟨hnd, _, _, hsum⟩ := invCounts_ingestAll eps
    have hrw : ∑ t ∈ T, transitionCount (ingestAll eps) s t =
        ∑ t ∈ T, dictGetD (transitionRow (ingestAll eps) s) t 0 := rfl
    rw [hrw, sum_getD_eq_values_sum _ T (hnd s) hT]
    exact (hsum s).symm
  · intro est a b
    constructor
    · rw [stateCount_addPair, if_pos rfl]
    · rw [transitionCount_addPair, if_pos ⟨rfl, rfl⟩]

/-- Witness for C2 at a concrete input. -/
theorem claim_C2_witness :
    (∀ t ∈ dictKeys (transitionRow (ingestAll [["Home", "Coffee"]]) "Home"),
      t ∈ ({"Coffee"} : Finset String)) ∧
    ∑ t ∈ ({"Coffee"} : Finset String),
      transitionCount (ingestAll [["Home", "Coffee"]]) "Home" t =
        stateCount (ingestAll [["Home", "Coffee"]]) "Home" :=
  ⟨by decide, claim_C2.1 [["Home", "Coffee"]] "Home" {"Coffee"} (by decide)⟩

/-- Claim C3: on any estimator reached by ingestion from empty, for
every state `s` with `stateCounts[s] > 0` the probabilities
`TransitionProbability(s,t)` summed over all states currently in
`states` equal exactly 1 (in exact rational arithmetic). -/
theorem claim_C3 (eps : List (List String)) (s : String)
    (h : 0 < stateCount (ingestAll eps) s) :
    ∑ t ∈ (ingestAll eps).states, transitionProbability (ingestAll eps) s t = 1 := by
  obtain ⟨hnd, hrowsub, _, hsum⟩ := invCounts_ingestAll eps
  have h0 : stateCount (ingestAll eps) s ≠ 0 := by omega
  have hterm : ∀ t ∈ (ingestAll eps).states,
      transitionProbability (ingestAll eps) s t =
        (transitionCount (ingestAll eps) s t : Rat) /
          (stateCount (ingestAll eps) s : Rat) := by
    intro t _
    rw [transitionProbability_eq, if_neg h0]
  rw [Finset.sum_congr rfl hterm, ← Finset.sum_div]
  have hcast : ∑ t ∈ (ingestAll eps).states,
      (transitionCount (ingestAll eps) s t : Rat) =
      ((∑ t ∈ (ingestAll eps).states, transitionCount (ingestAll eps) s t : Nat) :
        Rat) := by
    push_cast
    rfl
  have hsum2 : ∑ t ∈ (ingestAll eps).states, transitionCount (ingestAll eps) s t =
      stateCount (ingestAll eps) s := by
    have hrw : ∑ t ∈ (ingestAll eps).states, transitionCount (ingestAll eps) s t =
        ∑ t ∈ (ingestAll eps).states,
          dictGetD (transitionRow (ingestAll eps) s) t 0 := rfl
    rw [hrw, sum_getD_eq_values_sum _ _ (hnd s) (hrowsub s)]
    exact (hsum s).symm
  rw [hcast, hsum2]
  exact div_self (by exact_mod_cast h0)

/-- Witness for C3 at a concrete input. -/
theorem claim_C3_witness :
    0 < stateCount (ingestAll [["Home", "Coffee"]]) "Home" ∧
    ∑ t ∈ (ingestAll [["Home", "Coffee"]]).states,
      transitionProbability (ingestAll [["Home", "Coffee"]]) "Home" t = 1 :=
  ⟨by decide, claim_C3 [["Home", "Coffee"]] "Home" (by decide)⟩

/-- Claim C4: on every estimator state, `get_transition_probability`
returns 0 when `stateCounts[from] = 0` (whether or not `from` or `to`
are in `states`), and `transitionCounts[(from,to)] / stateCounts[from]`
otherwise. -/
theorem claim_C4 (est : MarkovProcessEstimator) (state_from state_to : String) :
    transitionProbability est state_from state_to =
      if stateCount est state_from = 0 then 0
      else (transitionCount est state_from state_to : Rat) /
        (stateCount est state_from : Rat) :=
  transitionProbability_eq est state_from state_to

/-- Claim C5: ingesting an episode of length 0 or 1 leaves the whole
estimator state unchanged, the retained `episodes` list included. -/
theorem claim_C5 (est : MarkovProcessEstimator) (episode : List String)
    (h : episode.length < 2) : add_episode est episode = est :=
  add_episode_short est episode h

/-- Witness for C5 at a concrete input. -/
theorem claim_C5_witness :
    (["Home"] : List String).length < 2 ∧
    add_episode emptyEstimator ["Home"] = emptyEstimator :=
  ⟨by decide, claim_C5 emptyEstimator ["Home"] (by decide)⟩

/-- Claim C6: ingesting an episode of length ≥ 2 twice from empty
doubles every transition count and state count relative to a single
ingestion and leaves every derived probability unchanged. -/
theorem claim_C6 (e : List String) (_h : 2 ≤ e.length) (s t : String) :
    transitionCount (add_episode (add_episode emptyEstimator e) e) s t =
      2 * transitionCount (add_episode emptyEstimator e) s t ∧
    stateCount (add_episode (add_episode emptyEstimator e) e) s =
      2 * stateCount (add_episode emptyEstimator e) s ∧
    transitionProbability (add_episode (add_episode emptyEstimator e) e) s t =
      transitionProbability (add_episode emptyEstimator e) s t := by
  have htc : transitionCount (add_episode (add_episode emptyEstimator e) e) s t =
      2 * transitionCount (add_episode emptyEstimator e) s t := by
    rw [transitionCount_add_episode]
    omega
  have hsc : stateCount (add_episode (add_episode emptyEstimator e) e) s =
      2 * stateCount (add_episode emptyEstimator e) s := by
    rw [stateCount_add_episode]
    omega
  refine ⟨htc, hsc, ?_⟩
  rw [transitionProbability_eq, transitionProbability_eq, htc, hsc]
  by_cases h0 : stateCount (add_episode emptyEstimator e) s = 0
  · rw [h0]
    simp
  · rw [if_neg h0, if_neg (by omega : ¬2 * stateCount (add_episode emptyEstimator e) s = 0)]
    push_cast
    exact mul_div_mul_left _ _ two_ne_zero

/-- Witness for C6 at a concrete input. -/
theorem claim_C6_witness :
    2 ≤ (["Home", "Coffee"] : List String).length ∧
    (transitionCount
        (add_episode (add_episode emptyEstimator ["Home", "Coffee"]) ["Home", "Coffee"])
        "Home" "Coffee" =
      2 * transitionCount (add_episode emptyEstimator ["Home", "Coffee"]) "Home" "Coffee" ∧
    stateCount
        (add_episode (add_episode emptyEstimator ["Home", "Coffee"]) ["Home", "Coffee"])
        "Home" =
      2 * stateCount (add_episode emptyEstimator ["Home", "Coffee"]) "Home" ∧
    transitionProbability
        (add_episode (add_episode emptyEstimator ["Home", "Coffee"]) ["Home", "Coffee"])
        "Home" "Coffee" =
      transitionProbability (add_episode emptyEstimator ["Home", "Coffee"]) "Home" "Coffee") :=
  ⟨by decide, claim_C6 ["Home", "Coffee"] (by decide) "Home" "Coffee"⟩

/-- Claim C7: on any estimator reached by ingestion from empty,
`get_state_statistics` reports, for each state `s` of the state space,
`total_occurrences = stateCounts[s]` and a sparse `transitions` map
defined exactly on the destinations with positive transition count,
carrying that count and the probability `TransitionProbability(s,t)`. -/
theorem claim_C7 (eps : List (List String)) (s : String)
    (hs : s ∈ (ingestAll eps).states) :
    get_state_statistics (ingestAll eps) s = some
      { total_occurrences := stateCount (ingestAll eps) s
        transitions := fun t =>
          if 0 < transitionCount (ingestAll eps) s t then
            some
              { count := transitionCount (ingestAll eps) s t
                probability := transitionProbability (ingestAll eps) s t }
          else none } := by
  obtain ⟨_, hrowsub, _, _⟩ := invCounts_ingestAll eps
  unfold get_state_statistics
  rw [if_pos hs]
  have htrans : (fun t =>
      if t ∈ (ingestAll eps).states ∧ 0 < transitionCount (ingestAll eps) s t then
        some
          { count := transitionCount (ingestAll eps) s t
            probability := transitionProbability (ingestAll eps) s t }
      else (none : Option TransitionStat)) = (fun t =>
      if 0 < transitionCount (ingestAll eps) s t then
        some
          { count := transitionCount (ingestAll eps) s t
            probability := transitionProbability (ingestAll eps) s t }
      else none) := by
    funext t
    by_cases hc : 0 < transitionCount (ingestAll eps) s t
    · have hne : transitionCount (ingestAll eps) s t ≠ 0 := by omega
      have ht : t ∈ (ingestAll eps).states :=
        hrowsub s t (mem_dictKeys_of_getD_ne _ t hne)
      rw [if_pos ⟨ht, hc⟩, if_pos hc]
    · rw [if_neg fun hh => hc hh.2, if_neg hc]
  exact congrArg
    (fun tr => some (StateStat.mk (stateCount (ingestAll eps) s) tr)) htrans

/-- Witness for C7 at a concrete input. -/
theorem claim_C7_witness :
    "Home" ∈ (ingestAll [["Home", "Coffee"]]).states ∧
    get_state_statistics (ingestAll [["Home", "Coffee"]]) "Home" = some
      { total_occurrences := stateCount (ingestAll [["Home", "Coffee"]]) "Home"
        transitions := fun t =>
          if 0 < transitionCount (ingestAll [["Home", "Coffee"]]) "Home" t then
            some
              { count := transitionCount (ingestAll [["Home", "Coffee"]]) "Home" t
                probability :=
                  transitionProbability (ingestAll [["Home", "Coffee"]]) "Home" t }
          else none } :=
  ⟨by decide, claim_C7 [["Home", "Coffee"]] "Home" (by decide)⟩

/-- Claim C8, as stated, is false on the code: a `defaultdict` lookup
during a mere query vivifies keys. After ingesting `["Home","Coffee"]`
and querying `get_transition_probability("Home","Zebra")`, the
destination key `"Zebra"` appears in `transition_counts["Home"]` (with
count 0) yet is not a member of `states`. -/
theorem claim_C8_counterexample :
    "Zebra" ∈ dictKeys (transitionRow
      ((get_transition_probability (ingestAll [["Home", "Coffee"]])
        "Home" "Zebra").2) "Home") ∧
    "Zebra" ∉ ((get_transition_probability (ingestAll [["Home", "Coffee"]])
      "Home" "Zebra").2).states := by
  decide

/-- Claim C8 (amended): after any sequence of `add_episode` calls from
the empty estimator, every state appearing in `transition_counts` as an
origin key or as a destination key is a member of `states`; queries can
additionally insert zero-count destination keys that are not in
`states`, so after queries the guarantee covers only ingested keys. -/
theorem claim_C8 (eps : List (List String)) :
    (∀ s ∈ dictKeys (ingestAll eps).transition_counts,
      s ∈ (ingestAll eps).states) ∧
    (∀ s t, t ∈ dictKeys (transitionRow (ingestAll eps) s) →
      t ∈ (ingestAll eps).states) := by
  obtain ⟨_, hrowsub, houter, _⟩ := invCounts_ingestAll eps
  exact ⟨houter, hrowsub⟩

/-- Witness for C8 (amended) at a concrete input. -/
theorem claim_C8_witness :
    "Home" ∈ dictKeys (ingestAll [["Home", "Coffee"]]).transition_counts ∧
    "Home" ∈ (ingestAll [["Home", "Coffee"]]).states :=
  ⟨by decide, (claim_C8 [["Home", "Coffee"]]).1 "Home" (by decide)⟩

/-- Claim C9: ingesting `["Coffee","Coffee","Chat"]` into an empty
estimator yields the stated counts, and the self-loop Coffee→Coffee is
counted like any other pair, giving both probabilities 1/2. -/
theorem claim_C9 :
    transitionCount (add_episode emptyEstimator ["Coffee", "Coffee", "Chat"])
      "Coffee" "Coffee" = 1 ∧
    transitionCount (add_episode emptyEstimator ["Coffee", "Coffee", "Chat"])
      "Coffee" "Chat" = 1 ∧
    stateCount (add_episode emptyEstimator ["Coffee", "Coffee", "Chat"])
      "Coffee" = 2 ∧
    transitionProbability (add_episode emptyEstimator ["Coffee", "Coffee", "Chat"])
      "Coffee" "Coffee" = 1 / 2 ∧
    transitionProbability (add_episode emptyEstimator ["Coffee", "Coffee", "Chat"])
      "Coffee" "Chat" = 1 / 2 := by
  have hsc : stateCount (add_episode emptyEstimator ["Coffee", "Coffee", "Chat"])
      "Coffee" = 2 := by decide
  have htc1 : transitionCount
      (add_episode emptyEstimator ["Coffee", "Coffee", "Chat"])
      "Coffee" "Coffee" = 1 := by decide
  have htc2 : transitionCount
      (add_episode emptyEstimator ["Coffee", "Coffee", "Chat"])
      "Coffee" "Chat" = 1 := by decide
  refine ⟨htc1, htc2, hsc, ?_, ?_⟩
  · rw [transitionProbability_eq, hsc, htc1]
    norm_num
  · rw [transitionProbability_eq, hsc, htc2]
    norm_num

/-- Claim C10: after any sequence of `add_episode` calls from the empty
estimator, `states` is exactly the set of labels occurring in the
retained `episodes` list. -/
theorem claim_C10 (eps : List (List String)) :
    (∀ e ∈ (ingestAll eps).episodes, ∀ x ∈ e, x ∈ (ingestAll eps).states) ∧
    (∀ x ∈ (ingestAll eps).states, ∃ e ∈ (ingestAll eps).episodes, x ∈ e) :=
  episodesOk_ingestAll eps

/-- Witness for C10 at a concrete input. -/
theorem claim_C10_witness :
    ["Home", "Coffee"] ∈ (ingestAll [["Home", "Coffee"]]).episodes ∧
    "Home" ∈ (["Home", "Coffee"] : List String) ∧
    "Home" ∈ (ingestAll [["Home", "Coffee"]]).states :=
  ⟨by decide, by decide,
    (claim_C10 [["Home", "Coffee"]]).1 ["Home", "Coffee"] (by decide)
      "Home" (by decide)⟩

end ProcessEstimator
